import Mathlib

/-!
Verification of the optimization-run orchestration in `swimpy/optimization.py`.

The Python module is shallowly embedded: floats are modelled as rationals,
strings as lists of characters, pandas frames as lists of rows, and the
fallible steps (asserts, `eval`, KeyError) as `Option`/`Except` results.
Python's exact `repr`/`eval` round trip on tuples of floats is modelled by an
exact printer/parser pair on rationals.
-/

namespace Swimpy

/-- Decimal digit to its character, as in the decimal rendering of numbers. -/
def digitChar (d : ℕ) : Char :=
  match d with
  | 0 => '0' | 1 => '1' | 2 => '2' | 3 => '3' | 4 => '4'
  | 5 => '5' | 6 => '6' | 7 => '7' | 8 => '8' | 9 => '9'
  | _ => '*'

/-- Character back to its digit value; `10` marks a non-digit. -/
def charVal (c : Char) : ℕ :=
  if c = '0' then 0 else if c = '1' then 1 else if c = '2' then 2
  else if c = '3' then 3 else if c = '4' then 4 else if c = '5' then 5
  else if c = '6' then 6 else if c = '7' then 7 else if c = '8' then 8
  else if c = '9' then 9 else 10

theorem charVal_digitChar {d : ℕ} (h : d < 10) : charVal (digitChar d) = d := by
  interval_cases d <;> rfl

theorem digitChar_ne {d : ℕ} (h : d < 10) :
    digitChar d ≠ ':' ∧ digitChar d ≠ ',' ∧ digitChar d ≠ '(' ∧
    digitChar d ≠ ')' ∧ digitChar d ≠ '-' ∧ digitChar d ≠ '/' ∧
    digitChar d ≠ ' ' := by
  interval_cases d <;> exact ⟨by decide, by decide, by decide, by decide,
    by decide, by decide, by decide⟩

/-- Fuel-driven base-10 digit expansion, little endian; structurally
recursive so that concrete instances reduce inside the kernel. -/
def dig10 : ℕ → ℕ → List ℕ
  | 0, _ => []
  | _ + 1, 0 => []
  | fuel + 1, n + 1 => ((n + 1) % 10) :: dig10 fuel ((n + 1) / 10)

theorem dig10_eq_digits : ∀ fuel n, n ≤ fuel → dig10 fuel n = Nat.digits 10 n := by
  intro fuel
  induction fuel with
  | zero =>
    intro n hn
    interval_cases n
    simp [dig10]
  | succ fuel ih =>
    intro n hn
    cases n with
    | zero => simp [dig10]
    | succ m =>
      rw [dig10, Nat.digits_def' (by norm_num : (1 : ℕ) < 10) (Nat.succ_pos m)]
      congr 1
      exact ih _ (by
        have : (m + 1) / 10 < m + 1 := Nat.div_lt_self (Nat.succ_pos m)
          (by norm_num)
        omega)

/-- Little-endian base-10 digits of a natural number. -/
def natDigits (n : ℕ) : List ℕ := dig10 n n

theorem natDigits_eq (n : ℕ) : natDigits n = Nat.digits 10 n :=
  dig10_eq_digits n n le_rfl

/-- Decimal rendering of a natural number, most significant digit first. -/
def natChars (n : ℕ) : List Char :=
  if n = 0 then ['0'] else ((natDigits n).map digitChar).reverse

/-- Parse a nonempty all-digit character list back to a natural number. -/
def charsToNat (l : List Char) : Option ℕ :=
  if l ≠ [] ∧ l.all (fun c => charVal c < 10) then
    some (Nat.ofDigits 10 ((l.map charVal).reverse))
  else none

theorem natChars_ne_nil (n : ℕ) : natChars n ≠ [] := by
  unfold natChars
  split
  · simp
  · next h =>
    simp only [ne_eq, List.reverse_eq_nil_iff, List.map_eq_nil_iff, natDigits_eq]
    exact Nat.digits_ne_nil_iff_ne_zero.mpr h

theorem natChars_mem {n : ℕ} {c : Char} (h : c ∈ natChars n) :
    ∃ d, d < 10 ∧ c = digitChar d := by
  unfold natChars at h
  split at h
  · simp only [List.mem_singleton] at h
    exact ⟨0, by norm_num, h⟩
  · simp only [List.mem_reverse, List.mem_map, natDigits_eq] at h
    obtain ⟨d, hd, hc⟩ := h
    exact ⟨d, Nat.digits_lt_base (by norm_num) hd, hc.symm⟩

theorem charsToNat_natChars (n : ℕ) : charsToNat (natChars n) = some n := by
  unfold charsToNat
  have hne : natChars n ≠ [] := natChars_ne_nil n
  have hall : (natChars n).all (fun c => charVal c < 10) = true := by
    rw [List.all_eq_true]
    intro c hc
    obtain ⟨d, hd, rfl⟩ := natChars_mem hc
    simpa [charVal_digitChar hd] using hd
  rw [if_pos ⟨hne, hall⟩]
  congr 1
  unfold natChars
  split
  · next h => subst h; rfl
  · next h =>
    rw [List.map_reverse, List.reverse_reverse, List.map_map, natDigits_eq]
    have : (Nat.digits 10 n).map (charVal ∘ digitChar) = Nat.digits 10 n := by
      conv_rhs => rw [show Nat.digits 10 n = (Nat.digits 10 n).map id from
        (List.map_id _).symm]
      apply List.map_congr_left
      intro d hd
      exact charVal_digitChar (Nat.digits_lt_base (by norm_num) hd)
    rw [this, Nat.ofDigits_digits]

/-- Model of Python's `str.split(':')` on character lists: splits at every
colon, keeping empty fields. -/
def splitOnColon : List Char → List (List Char)
  | [] => [[]]
  | c :: rest =>
    if c = ':' then [] :: splitOnColon rest
    else
      match splitOnColon rest with
      | [] => [[c]]
      | h :: t => (c :: h) :: t

theorem splitOnColon_ne_nil (l : List Char) : splitOnColon l ≠ [] := by
  induction l with
  | nil => simp [splitOnColon]
  | cons c rest ih =>
    unfold splitOnColon
    split
    · simp
    · cases h : splitOnColon rest <;> simp

theorem splitOnColon_noColon {l : List Char} (h : ∀ c ∈ l, c ≠ ':') :
    splitOnColon l = [l] := by
  induction l with
  | nil => rfl
  | cons c rest ih =>
    unfold splitOnColon
    rw [if_neg (h c (List.mem_cons_self c rest))]
    rw [ih (fun x hx => h x (List.mem_cons_of_mem c hx))]

theorem splitOnColon_append {xs : List Char} (ys : List Char)
    (h : ∀ c ∈ xs, c ≠ ':') :
    splitOnColon (xs ++ ':' :: ys) = xs :: splitOnColon ys := by
  induction xs with
  | nil => simp [splitOnColon]
  | cons c rest ih =>
    have hc : c ≠ ':' := h c (List.mem_cons_self c rest)
    have hr := ih (fun x hx => h x (List.mem_cons_of_mem c hx))
    simp only [List.cons_append]
    rw [splitOnColon, if_neg hc, hr]

theorem takeWhile_append_cons {p : Char → Bool} {xs : List Char} {y : Char}
    (ys : List Char) (hx : ∀ x ∈ xs, p x = true) (hy : p y = false) :
    (xs ++ y :: ys).takeWhile p = xs := by
  induction xs with
  | nil => simp [List.takeWhile, hy]
  | cons c rest ih =>
    have hc : p c = true := hx c (List.mem_cons_self c rest)
    simp only [List.cons_append, List.takeWhile_cons, hc]
    simp [ih (fun x h => hx x (List.mem_cons_of_mem c h))]

theorem dropWhile_append_cons {p : Char → Bool} {xs : List Char} {y : Char}
    (ys : List Char) (hx : ∀ x ∈ xs, p x = true) (hy : p y = false) :
    (xs ++ y :: ys).dropWhile p = y :: ys := by
  induction xs with
  | nil => simp [List.dropWhile, hy]
  | cons c rest ih =>
    have hc : p c = true := hx c (List.mem_cons_self c rest)
    simp only [List.cons_append, List.dropWhile_cons, hc]
    simpa using ih (fun x h => hx x (List.mem_cons_of_mem c h))

theorem span_append_cons {p : Char → Bool} {xs : List Char} {y : Char}
    (ys : List Char) (hx : ∀ x ∈ xs, p x = true) (hy : p y = false) :
    (xs ++ y :: ys).span p = (xs, y :: ys) := by
  rw [List.span_eq_take_drop, takeWhile_append_cons ys hx hy,
    dropWhile_append_cons ys hx hy]

/-- Exact textual rendering of a rational, standing in for Python's exact
`repr` of a float: sign, numerator and denominator in decimal. -/
def reprQ (q : ℚ) : List Char :=
  (if q.num < 0 then ['-'] else []) ++ natChars q.num.natAbs ++
    '/' :: natChars q.den

/-- Parse the unsigned part produced by `reprQ`. -/
def parseNonneg (l : List Char) : Option ℚ :=
  let s := l.span (fun c => c != '/')
  match s.2 with
  | '/' :: ds =>
    match charsToNat s.1, charsToNat ds with
    | some n, some d => some ((n : ℚ) / (d : ℚ))
    | _, _ => none
  | _ => none

/-- Inverse of `reprQ`, standing in for Python's `eval` on a float literal. -/
def parseQ (l : List Char) : Option ℚ :=
  if l.head? = some '-' then (parseNonneg l.tail).map (fun q => -q)
  else parseNonneg l

theorem reprQ_mem {q : ℚ} {c : Char} (h : c ∈ reprQ q) :
    c = '-' ∨ c = '/' ∨ ∃ d, d < 10 ∧ c = digitChar d := by
  unfold reprQ at h
  simp only [List.append_assoc, List.mem_append, List.mem_cons] at h
  rcases h with h | h | h | h
  · split at h <;> simp_all
  · exact Or.inr (Or.inr (natChars_mem h))
  · exact Or.inr (Or.inl h)
  · exact Or.inr (Or.inr (natChars_mem h))

theorem reprQ_ne_colon {q : ℚ} {c : Char} (h : c ∈ reprQ q) : c ≠ ':' := by
  rcases reprQ_mem h with rfl | rfl | ⟨d, hd, rfl⟩
  · decide
  · decide
  · exact (digitChar_ne hd).1

theorem parseNonneg_part (n d : ℕ) :
    parseNonneg (natChars n ++ '/' :: natChars d) = some ((n : ℚ) / (d : ℚ)) := by
  unfold parseNonneg
  have hx : ∀ x ∈ natChars n, (x != '/') = true := by
    intro x hx
    obtain ⟨e, he, rfl⟩ := natChars_mem hx
    simpa using (digitChar_ne he).2.2.2.2.2.1
  have hsp := span_append_cons (p := fun c => c != '/') (y := '/')
    (natChars d) hx (by simp)
  rw [hsp]
  simp [charsToNat_natChars]

theorem parseQ_reprQ (q : ℚ) : parseQ (reprQ q) = some q := by
  obtain ⟨c, cs, hcs⟩ : ∃ c cs, natChars q.num.natAbs = c :: cs := by
    cases h : natChars q.num.natAbs with
    | nil => exact absurd h (natChars_ne_nil _)
    | cons c cs => exact ⟨c, cs, rfl⟩
  have hcd : c ≠ '-' := by
    have hmem : c ∈ natChars q.num.natAbs := by
      rw [hcs]; exact List.mem_cons_self _ _
    obtain ⟨d, hd, rfl⟩ := natChars_mem hmem
    exact (digitChar_ne hd).2.2.2.2.1
  by_cases hq : q.num < 0
  · have hrepr : reprQ q =
        '-' :: (natChars q.num.natAbs ++ '/' :: natChars q.den) := by
      unfold reprQ; rw [if_pos hq]; rfl
    rw [hrepr]
    unfold parseQ
    rw [List.head?_cons, if_pos rfl, List.tail_cons, parseNonneg_part]
    simp only [Option.map_some']
    congr 1
    have h1 : ((q.num.natAbs : ℚ)) = -(q.num : ℚ) := by
      rw [Int.cast_natAbs]
      exact_mod_cast congrArg (fun z : ℤ => (z : ℚ)) (abs_of_neg hq)
    rw [h1, neg_div, neg_neg, Rat.num_div_den]
  · have hrepr : reprQ q = natChars q.num.natAbs ++ '/' :: natChars q.den := by
      unfold reprQ; rw [if_neg hq]; rfl
    rw [hrepr]
    unfold parseQ
    have hne : (natChars q.num.natAbs ++ '/' :: natChars q.den).head? ≠
        some '-' := by
      rw [hcs]
      simpa using hcd
    rw [if_neg hne, parseNonneg_part]
    congr 1
    have h1 : ((q.num.natAbs : ℚ)) = (q.num : ℚ) := by
      rw [Int.cast_natAbs]
      exact_mod_cast congrArg (fun z : ℤ => (z : ℚ)) (abs_of_nonneg (not_lt.mp hq))
    rw [h1, Rat.num_div_den]

/-- Model of Python's `%r` on a 2-tuple of floats: `(lo, up)`. -/
def reprRange (r : ℚ × ℚ) : List Char :=
  '(' :: (reprQ r.1 ++ ',' :: ' ' :: reprQ r.2 ++ [')'])

/-- Model of Python's `eval` on the text produced by `reprRange`. -/
def parseRange (l : List Char) : Option (ℚ × ℚ) :=
  match l with
  | '(' :: rest =>
    let s1 := rest.span (fun c => c != ',')
    match s1.2 with
    | ',' :: ' ' :: rest2 =>
      let s2 := rest2.span (fun c => c != ')')
      match s2.2 with
      | [')'] =>
        match parseQ s1.1, parseQ s2.1 with
        | some a, some b => some (a, b)
        | _, _ => none
      | _ => none
    | _ => none
  | _ => none

theorem reprQ_ne_comma {q : ℚ} {c : Char} (h : c ∈ reprQ q) : c ≠ ',' := by
  rcases reprQ_mem h with rfl | rfl | ⟨d, hd, rfl⟩
  · decide
  · decide
  · exact (digitChar_ne hd).2.1

theorem reprQ_ne_rparen {q : ℚ} {c : Char} (h : c ∈ reprQ q) : c ≠ ')' := by
  rcases reprQ_mem h with rfl | rfl | ⟨d, hd, rfl⟩
  · decide
  · decide
  · exact (digitChar_ne hd).2.2.2.1

theorem parseRange_reprRange (r : ℚ × ℚ) : parseRange (reprRange r) = some r := by
  obtain ⟨a, b⟩ := r
  unfold reprRange parseRange
  have h1 := span_append_cons (p := fun c => c != ',') (y := ',')
    (' ' :: reprQ b ++ [')'])
    (fun x hx => by simpa using reprQ_ne_comma (q := a) hx) (by simp)
  have h2 := span_append_cons (p := fun c => c != ')') (y := ')') []
    (fun x hx => by simpa using reprQ_ne_rparen (q := b) hx) (by simp)
  simp only [List.append_assoc, List.cons_append, List.nil_append] at h1 h2 ⊢
  rw [h1]
  simp only []
  rw [h2]
  simp [parseQ_reprQ]

theorem reprRange_ne_colon {r : ℚ × ℚ} {c : Char} (h : c ∈ reprRange r) :
    c ≠ ':' := by
  obtain ⟨a, b⟩ := r
  unfold reprRange at h
  simp only [List.cons_append, List.append_assoc, List.mem_cons,
    List.mem_append, List.mem_singleton] at h
  rcases h with rfl | h | rfl | rfl | h | rfl | h
  · decide
  · exact reprQ_ne_colon h
  · decide
  · decide
  · exact reprQ_ne_colon h
  · decide
  · exact absurd h (List.not_mem_nil c)

/-- One evoalgos individual as serialized by `observe_population`. -/
structure Individual where
  id_number : ℕ
  clonename : List Char
  date_of_birth : ℕ
  objective_values : List ℚ
  genome : List ℚ
deriving DecidableEq

/-- One CSV row of the population file; `values` holds the objective values
followed by the genome. -/
structure CsvRow where
  generation : ℕ
  id_number : ℕ
  clone : List Char
  birthgeneration : ℕ
  values : List ℚ
deriving DecidableEq

/-- The fixed metadata columns of `_EvoalgosSwimProblem`. -/
def output_attribute_columns : List (List Char) :=
  ["generation".toList, "id_number".toList, "clone".toList,
   "birthgeneration".toList]

/-- Column name `parameter:<name>:<range-repr>`. -/
def parameterCol (p : List Char × ℚ × ℚ) : List Char :=
  "parameter".toList ++ ':' :: p.1 ++ ':' :: reprRange p.2

/-- Column name `objective:<name>:<indicator>`. -/
def objectiveCol (o : List Char × List Char) : List Char :=
  "objective".toList ++ ':' :: o.1 ++ ':' :: o.2

/-- Header written by `observe_population`: metadata columns, then the
objective columns, then the parameter columns. -/
def observeHeader (params : List (List Char × ℚ × ℚ))
    (objs : List (List Char × List Char)) : List (List Char) :=
  output_attribute_columns ++ objs.map objectiveCol ++ params.map parameterCol

/-- Rows written by `observe_population`: one row per individual of the
population, in order. -/
def observeRows (generation : ℕ) (pop : List Individual) : List CsvRow :=
  pop.map fun i =>
    ⟨generation, i.id_number, i.clonename, i.date_of_birth,
     i.objective_values ++ i.genome⟩

/-- The `popframe.to_csv(...)` call of `observe_population`: the header is
emitted only when `ea.generation == 0`. -/
def observe_population (params : List (List Char × ℚ × ℚ))
    (objs : List (List Char × List Char)) (generation : ℕ)
    (pop : List Individual) : Option (List (List Char)) × List CsvRow :=
  (if generation = 0 then some (observeHeader params objs) else none,
   observeRows generation pop)

/-- Metadata recovered by `optimization_populations.from_csv`. -/
structure ReadPopulations where
  parameters : List (List Char)
  parameter_ranges : List (List Char × ℚ × ℚ)
  objectives : List (List Char)
  indicators : List (List Char × List Char)
  columns : List (List Char)
  rows : List CsvRow
deriving DecidableEq

inductive ReadErr where
  | evalError
deriving DecidableEq

def kwParameter : List Char := "parameter".toList

def kwObjective : List Char := "objective".toList

/-- The column-interpretation loop of `from_csv`: each column name is split on
`:`; with at least three fields the column is renamed to the second field and,
for the `parameter`/`objective` kinds, registered together with its evaluated
range or its indicator name; any other column passes through unchanged.  A
`parameter` column whose third field does not evaluate raises. -/
def interpretCols : List (List Char) → Except ReadErr ReadPopulations
  | [] => .ok ⟨[], [], [], [], [], []⟩
  | c :: rest =>
    match interpretCols rest with
    | .error e => .error e
    | .ok acc =>
      let pr := splitOnColon c
      if 3 ≤ pr.length then
        let name := pr.getD 1 []
        let meta := pr.getD 2 []
        if pr.getD 0 [] = kwParameter then
          match parseRange meta with
          | some r =>
            .ok { acc with
              parameters := name :: acc.parameters,
              parameter_ranges := (name, r) :: acc.parameter_ranges,
              columns := name :: acc.columns }
          | none => .error .evalError
        else if pr.getD 0 [] = kwObjective then
          .ok { acc with
            objectives := name :: acc.objectives,
            indicators := (name, meta) :: acc.indicators,
            columns := name :: acc.columns }
        else
          .ok { acc with columns := name :: acc.columns }
      else
        .ok { acc with columns := c :: acc.columns }

/-- `optimization_populations.from_csv`: the first two columns are the
`(generation, id_number)` index, the remaining columns are interpreted, and
the row data passes through unchanged. -/
def from_csv (header : List (List Char)) (rows : List CsvRow) :
    Except ReadErr ReadPopulations :=
  match interpretCols (header.drop 2) with
  | .error e => .error e
  | .ok acc => .ok { acc with rows := rows }

theorem splitOnColon_parameterCol {p : List Char × ℚ × ℚ}
    (h : ∀ ch ∈ p.1, ch ≠ ':') :
    splitOnColon (parameterCol p) = [kwParameter, p.1, reprRange p.2] := by
  have hshape : parameterCol p =
      "parameter".toList ++ ':' :: (p.1 ++ ':' :: reprRange p.2) := by
    unfold parameterCol
    simp [List.cons_append]
  rw [hshape, splitOnColon_append _ (by decide), splitOnColon_append _ h,
    splitOnColon_noColon (fun ch hch => reprRange_ne_colon hch)]
  rfl

theorem splitOnColon_objectiveCol {o : List Char × List Char}
    (h1 : ∀ ch ∈ o.1, ch ≠ ':') (h2 : ∀ ch ∈ o.2, ch ≠ ':') :
    splitOnColon (objectiveCol o) = [kwObjective, o.1, o.2] := by
  have hshape : objectiveCol o =
      "objective".toList ++ ':' :: (o.1 ++ ':' :: o.2) := by
    unfold objectiveCol
    simp [List.cons_append]
  rw [hshape, splitOnColon_append _ (by decide), splitOnColon_append _ h1,
    splitOnColon_noColon h2]
  rfl

theorem interpretCols_param {P : List (List Char × ℚ × ℚ)}
    (hP : ∀ p ∈ P, ∀ ch ∈ p.1, ch ≠ ':') :
    interpretCols (P.map parameterCol) =
      .ok ⟨P.map (fun p => p.1), P, [], [], P.map (fun p => p.1), []⟩ := by
  induction P with
  | nil => rfl
  | cons p P ih =>
    have hname : ∀ ch ∈ p.1, ch ≠ ':' := hP p (List.mem_cons_self _ _)
    have hrec := ih (fun q hq => hP q (List.mem_cons_of_mem _ hq))
    have hsplit := splitOnColon_parameterCol hname
    simp only [List.map_cons, interpretCols, hrec, hsplit]
    simp [parseRange_reprRange]

theorem interpretCols_obj_append {O : List (List Char × List Char)}
    {tail : List (List Char)} {acc : ReadPopulations}
    (hO : ∀ o ∈ O, (∀ ch ∈ o.1, ch ≠ ':') ∧ (∀ ch ∈ o.2, ch ≠ ':'))
    (ht : interpretCols tail = .ok acc) :
    interpretCols (O.map objectiveCol ++ tail) = .ok { acc with
      objectives := O.map (fun o => o.1) ++ acc.objectives,
      indicators := O ++ acc.indicators,
      columns := O.map (fun o => o.1) ++ acc.columns } := by
  induction O with
  | nil => simpa using ht
  | cons o O ih =>
    have hname := hO o (List.mem_cons_self _ _)
    have hrec := ih (fun q hq => hO q (List.mem_cons_of_mem _ hq))
    have hsplit := splitOnColon_objectiveCol hname.1 hname.2
    simp only [List.map_cons, List.cons_append, interpretCols, hsplit]
    have hkw : kwObjective ≠ kwParameter := by decide
    simp [hkw, hrec]

theorem interpretCols_cons_plain {c : List Char} {tail : List (List Char)}
    {acc : ReadPopulations} (ht : interpretCols tail = .ok acc)
    (hc : (splitOnColon c).length < 3) :
    interpretCols (c :: tail) =
      .ok { acc with columns := c :: acc.columns } := by
  simp only [interpretCols, ht]
  rw [if_neg (show ¬ 3 ≤ (splitOnColon c).length by omega)]

/-- C1, main part: reading back a population file written at generation 0
recovers the parameter names and ranges, the objective names and indicator
mapping, and the unaltered rows. -/
theorem read_write_roundtrip (P : List (List Char × ℚ × ℚ))
    (O : List (List Char × List Char)) (pop : List Individual)
    (hP : ∀ p ∈ P, ∀ ch ∈ p.1, ch ≠ ':')
    (hO : ∀ o ∈ O, (∀ ch ∈ o.1, ch ≠ ':') ∧ (∀ ch ∈ o.2, ch ≠ ':')) :
    from_csv (observeHeader P O) (observeRows 0 pop) = .ok
      { parameters := P.map (fun p => p.1),
        parameter_ranges := P,
        objectives := O.map (fun o => o.1),
        indicators := O,
        columns := ["clone".toList, "birthgeneration".toList] ++
          O.map (fun o => o.1) ++ P.map (fun p => p.1),
        rows := observeRows 0 pop } := by
  have h1 := interpretCols_param hP
  have h2 := interpretCols_obj_append hO h1
  dsimp only at h2
  have h3 := interpretCols_cons_plain (c := "birthgeneration".toList) h2
    (by decide)
  have h4 := interpretCols_cons_plain (c := "clone".toList) h3 (by decide)
  dsimp only at h4
  have hdrop : (observeHeader P O).drop 2 =
      "clone".toList :: "birthgeneration".toList ::
        (O.map objectiveCol ++ P.map parameterCol) := rfl
  unfold from_csv
  rw [hdrop, h4]
  simp

/-- C1: for every population with at least one individual, parameters with
declared ranges and objectives with declared indicator names (names free of
the `:` delimiter that the `kind:name:meta` column format reserves), writing
the population store writes one row per individual with the header only on
generation 0, and reading it back reproduces exactly the parameter names and
ranges, the objective names and indicator mappings, and the numeric values of
every individual. -/
theorem c1_store_roundtrip (P : List (List Char × ℚ × ℚ))
    (O : List (List Char × List Char)) (pop : List Individual) (g : ℕ)
    (hP : ∀ p ∈ P, ∀ ch ∈ p.1, ch ≠ ':')
    (hO : ∀ o ∈ O, (∀ ch ∈ o.1, ch ≠ ':') ∧ (∀ ch ∈ o.2, ch ≠ ':'))
    (hpop : pop ≠ []) :
    from_csv (observeHeader P O) (observeRows 0 pop) = .ok
      { parameters := P.map (fun p => p.1),
        parameter_ranges := P,
        objectives := O.map (fun o => o.1),
        indicators := O,
        columns := ["clone".toList, "birthgeneration".toList] ++
          O.map (fun o => o.1) ++ P.map (fun p => p.1),
        rows := observeRows 0 pop } ∧
    (observe_population P O g pop).1 =
      (if g = 0 then some (observeHeader P O) else none) ∧
    ((observe_population P O g pop).2).length = pop.length := by
  refine ⟨read_write_roundtrip P O pop hP hO, rfl, ?_⟩
  simp [observe_population, observeRows]

/-- Witness for C1 at a concrete one-individual population. -/
theorem c1_store_roundtrip_witness :
    from_csv
      (observeHeader [("a".toList, ((1 : ℚ)/2, (2 : ℚ)))]
        [("o".toList, "nse".toList)])
      (observeRows 0 [⟨7, "c0".toList, 0, [3], [1]⟩]) = .ok
      { parameters := [("a".toList, ((1 : ℚ)/2, (2 : ℚ)))].map (fun p => p.1),
        parameter_ranges := [("a".toList, ((1 : ℚ)/2, (2 : ℚ)))],
        objectives := [("o".toList, "nse".toList)].map (fun o => o.1),
        indicators := [("o".toList, "nse".toList)],
        columns := ["clone".toList, "birthgeneration".toList] ++
          [("o".toList, "nse".toList)].map (fun o => o.1) ++
          [("a".toList, ((1 : ℚ)/2, (2 : ℚ)))].map (fun p => p.1),
        rows := observeRows 0 [⟨7, "c0".toList, 0, [3], [1]⟩] } ∧
    (observe_population [("a".toList, ((1 : ℚ)/2, (2 : ℚ)))]
        [("o".toList, "nse".toList)] 0 [⟨7, "c0".toList, 0, [3], [1]⟩]).1 =
      (if (0 : ℕ) = 0 then some (observeHeader
        [("a".toList, ((1 : ℚ)/2, (2 : ℚ)))] [("o".toList, "nse".toList)])
       else none) ∧
    ((observe_population [("a".toList, ((1 : ℚ)/2, (2 : ℚ)))]
        [("o".toList, "nse".toList)] 0 [⟨7, "c0".toList, 0, [3], [1]⟩]).2).length
      = [(⟨7, "c0".toList, 0, [3], [1]⟩ : Individual)].length :=
  c1_store_roundtrip [("a".toList, ((1 : ℚ)/2, (2 : ℚ)))]
    [("o".toList, "nse".toList)] [⟨7, "c0".toList, 0, [3], [1]⟩] 0
    (by decide) (by decide) (by decide)

/-- A column is rejected by `from_csv` exactly when it is a `parameter:`
column whose third field does not evaluate as a range. -/
def colEvalBad (c : List Char) : Prop :=
  3 ≤ (splitOnColon c).length ∧ (splitOnColon c).getD 0 [] = kwParameter ∧
    parseRange ((splitOnColon c).getD 2 []) = none

instance (c : List Char) : Decidable (colEvalBad c) := by
  unfold colEvalBad
  infer_instance

theorem interpretCols_ok_iff (cols : List (List Char)) :
    (∃ acc, interpretCols cols = .ok acc) ↔ ∀ c ∈ cols, ¬ colEvalBad c := by
  induction cols with
  | nil => simp [interpretCols]
  | cons c rest ih =>
    cases h : interpretCols rest with
    | error e =>
      have hrest : ¬ ∀ x ∈ rest, ¬ colEvalBad x := by
        intro hall
        obtain ⟨acc, hacc⟩ := ih.mpr hall
        rw [h] at hacc
        exact Except.noConfusion hacc
      constructor
      · intro ⟨acc, hacc⟩
        rw [interpretCols, h] at hacc
        exact absurd hacc (fun hx => Except.noConfusion hx)
      · intro hall
        exact absurd (fun x hx => hall x (List.mem_cons_of_mem c hx)) hrest
    | ok acc =>
      have hrest : ∀ x ∈ rest, ¬ colEvalBad x := ih.mp ⟨acc, h⟩
      rw [interpretCols, h]
      by_cases h3 : 3 ≤ (splitOnColon c).length
      · by_cases hkw : (splitOnColon c).getD 0 [] = kwParameter
        · cases hpr : parseRange ((splitOnColon c).getD 2 []) with
          | none =>
            simp only [if_pos h3, if_pos hkw, hpr]
            constructor
            · intro ⟨a, ha⟩
              exact Except.noConfusion ha
            · intro hall
              exact absurd ⟨h3, hkw, hpr⟩ (hall c (List.mem_cons_self c rest))
          | some r =>
            simp only [if_pos h3, if_pos hkw, hpr]
            constructor
            · intro _
              intro x hx
              rcases List.mem_cons.mp hx with rfl | hx
              · intro ⟨_, _, hbad⟩
                rw [hpr] at hbad
                exact Option.noConfusion hbad
              · exact hrest x hx
            · intro _
              exact ⟨_, rfl⟩
        · simp only [if_pos h3, if_neg hkw]
          have hnotbad : ¬ colEvalBad c := fun ⟨_, hk, _⟩ => hkw hk
          split
          · constructor
            · intro _ x hx
              rcases List.mem_cons.mp hx with rfl | hx
              · exact hnotbad
              · exact hrest x hx
            · intro _
              exact ⟨_, rfl⟩
          · constructor
            · intro _ x hx
              rcases List.mem_cons.mp hx with rfl | hx
              · exact hnotbad
              · exact hrest x hx
            · intro _
              exact ⟨_, rfl⟩
      · simp only [if_neg h3]
        have hnotbad : ¬ colEvalBad c := fun ⟨hk, _, _⟩ => h3 hk
        constructor
        · intro _ x hx
          rcases List.mem_cons.mp hx with rfl | hx
          · exact hnotbad
          · exact hrest x hx
        · intro _
          exact ⟨_, rfl⟩

/-- C5, counterexample: a file whose non-metadata column `bogus` does not
match the `kind:name:meta` pattern and whose generation numbers are the
non-contiguous set 0, 1, 3 is read back without any error: the column passes
through unchanged and the rows are untouched, so `from_csv` raises no format
error for either condition. -/
theorem c5_counterexample :
    from_csv ["generation".toList, "id_number".toList, "bogus".toList]
      [⟨0, 0, [], 0, []⟩, ⟨1, 1, [], 1, []⟩, ⟨3, 2, [], 3, []⟩] =
      .ok ⟨[], [], [], [], ["bogus".toList],
        [⟨0, 0, [], 0, []⟩, ⟨1, 1, [], 1, []⟩, ⟨3, 2, [], 3, []⟩]⟩ := by
  rfl

/-- C5, amended: `from_csv` validates neither the column pattern nor the
contiguity of generation numbers.  Reading succeeds for arbitrary rows — in
particular with generation gaps — if and only if no column is a `parameter:`
column whose range field fails to evaluate; every other column shape is
accepted. -/
theorem c5_read_failure_amended (header : List (List Char))
    (rows : List CsvRow) :
    (∃ acc, from_csv header rows = .ok acc) ↔
      ∀ c ∈ header.drop 2, ¬ colEvalBad c := by
  rw [← interpretCols_ok_iff]
  unfold from_csv
  constructor
  · intro ⟨acc, hacc⟩
    cases h : interpretCols (header.drop 2) with
    | error e =>
      rw [h] at hacc
      exact Except.noConfusion hacc
    | ok a => exact ⟨a, rfl⟩
  · intro ⟨acc, hacc⟩
    rw [hacc]
    exact ⟨_, rfl⟩

/-- Witness for the amended C5 theorem at the counterexample file. -/
theorem c5_read_failure_amended_witness :
    ∃ acc, from_csv ["generation".toList, "id_number".toList, "bogus".toList]
      [⟨0, 0, [], 0, []⟩, ⟨1, 1, [], 1, []⟩, ⟨3, 2, [], 3, []⟩] = .ok acc :=
  (c5_read_failure_amended _ _).mpr (by decide)

/-! ParetoSelector: `last_generation`, `best_tradeoff` and
`select_min_objectives` operate on the frame of objective rows, each row
keyed by its generation number. -/

/-- The maximum generation number present in the frame,
`max(self.index.levels[0])`. -/
def maxGen (frame : List (ℕ × List ℚ)) : ℕ :=
  frame.foldr (fun r m => max r.1 m) 0

/-- `optimization_populations.last_generation`: all rows whose generation
equals the maximum generation present. -/
def last_generation (frame : List (ℕ × List ℚ)) : List (List ℚ) :=
  (frame.filter (fun r => r.1 = maxGen frame)).map (fun r => r.2)

/-- Maximum of a list of rationals (as `Series.max` on a nonempty column). -/
def listMax : List ℚ → ℚ
  | [] => 0
  | [x] => x
  | x :: y :: xs => max x (listMax (y :: xs))

/-- Transpose of a rectangular list of rows into its columns. -/
def transposeQ : List (List ℚ) → List (List ℚ)
  | [] => []
  | [r] => r.map (fun x => [x])
  | r :: rest => List.zipWith (fun x col => x :: col) r (transposeQ rest)

/-- Per-column maximum, `lastgen[objectives].max()`. -/
def colMax (rows : List (List ℚ)) : List ℚ :=
  (transposeQ rows).map listMax

/-- `np.min((lastgen[objectives].max(), minobjectives), axis=0)`: elementwise
minimum of the column maxima and the declared ceilings, when given. -/
def edges (rows : List (List ℚ)) (mo : Option (List ℚ)) : List ℚ :=
  match mo with
  | none => colMax rows
  | some m => List.zipWith min (colMax rows) m

/-- Squared Euclidean length of a row after dividing by the edges. -/
def distSq (e row : List ℚ) : ℚ :=
  ((List.zipWith (fun a b => a / b) row e).map (fun x => x * x)).sum

/-- Squared distances to the origin of all scaled rows. -/
def distSqs (rows : List (List ℚ)) (e : List ℚ) : List ℚ :=
  rows.map (fun row => distSq e row)

/-- `Series.idxmin`: position of the first minimal entry. -/
def idxmin : List ℚ → ℕ
  | [] => 0
  | [_] => 0
  | x :: y :: xs =>
    let j := idxmin (y :: xs)
    if x ≤ (y :: xs).getD j 0 then 0 else j + 1

/-- Core of `best_tradeoff` on the last generation's objective rows. -/
def best_tradeoff_core (lg : List (List ℚ)) (mo : Option (List ℚ)) :
    Option (List ℚ) :=
  lg.get? (idxmin (distSqs lg (edges lg mo)))

/-- `optimization_populations.best_tradeoff`: asserts the ceiling count
matches the objective count `M`, scales the last generation by the
elementwise minimum of ceilings and column maxima, and picks the row with
the smallest distance to the origin. -/
def best_tradeoff (frame : List (ℕ × List ℚ)) (M : ℕ)
    (mo : Option (List ℚ)) : Option (List ℚ) :=
  match mo with
  | some m =>
    if m.length = M then best_tradeoff_core (last_generation frame) (some m)
    else none
  | none => best_tradeoff_core (last_generation frame) none

/-- First-minimum predicate on a list of reals: `i` is in range, its entry is
minimal, and strictly below every earlier entry. -/
def isFirstMinR (l : List ℝ) (i : ℕ) : Prop :=
  i < l.length ∧ (∀ j, j < l.length → l.getD i 0 ≤ l.getD j 0) ∧
    ∀ j, j < i → l.getD i 0 < l.getD j 0

theorem idxmin_spec : ∀ l : List ℚ, l ≠ [] →
    idxmin l < l.length ∧
    (∀ j, j < l.length → l.getD (idxmin l) 0 ≤ l.getD j 0) ∧
    (∀ j, j < idxmin l → l.getD (idxmin l) 0 < l.getD j 0)
  | [], h => absurd rfl h
  | [x], _ => by
    refine ⟨by simp [idxmin], ?_, ?_⟩
    · intro j hj
      have hj0 : j = 0 := by simpa using hj
      subst hj0
      simp [idxmin]
    · intro j hj
      simp [idxmin] at hj
  | x :: y :: xs, _ => by
    obtain ⟨ih1, ih2, ih3⟩ := idxmin_spec (y :: xs) (by simp)
    by_cases hx : x ≤ (y :: xs).getD (idxmin (y :: xs)) 0
    · have hidx : idxmin (x :: y :: xs) = 0 := by
        rw [idxmin]
        exact if_pos hx
      rw [hidx]
      refine ⟨Nat.succ_pos _, ?_, ?_⟩
      · intro k hk
        cases k with
        | zero => exact le_refl _
        | succ k' =>
          have hk' : k' < (y :: xs).length := by
            simpa [Nat.succ_lt_succ_iff] using hk
          calc (x :: y :: xs).getD 0 0 = x := rfl
          _ ≤ (y :: xs).getD (idxmin (y :: xs)) 0 := hx
          _ ≤ (y :: xs).getD k' 0 := ih2 k' hk'
          _ = (x :: y :: xs).getD (k' + 1) 0 := rfl
      · intro k hk
        exact absurd hk (Nat.not_lt_zero k)
    · have hidx : idxmin (x :: y :: xs) = idxmin (y :: xs) + 1 := by
        rw [idxmin]
        exact if_neg hx
      rw [hidx]
      have hlt : (y :: xs).getD (idxmin (y :: xs)) 0 < x := lt_of_not_le hx
      refine ⟨Nat.succ_lt_succ ih1, ?_, ?_⟩
      · intro k hk
        cases k with
        | zero => exact le_of_lt hlt
        | succ k' =>
          have hk' : k' < (y :: xs).length := by
            simpa [Nat.succ_lt_succ_iff] using hk
          exact ih2 k' hk'
      · intro k hk
        cases k with
        | zero => exact hlt
        | succ k' =>
          have hk' : k' < idxmin (y :: xs) := by omega
          exact ih3 k' hk'

theorem distSq_nonneg (e row : List ℚ) : 0 ≤ distSq e row := by
  unfold distSq
  apply List.sum_nonneg
  intro x hx
  simp only [List.mem_map] at hx
  obtain ⟨a, _, rfl⟩ := hx
  exact mul_self_nonneg a

/-- The real square roots of a list of rationals (`np.sqrt` on the squared
distances). -/
noncomputable def sqrtList (l : List ℚ) : List ℝ :=
  l.map (fun q => Real.sqrt (Rat.cast q))

theorem isFirstMinR_sqrt {l : List ℚ} (hpos : ∀ q ∈ l, 0 ≤ q)
    (h1 : idxmin l < l.length)
    (h2 : ∀ j, j < l.length → l.getD (idxmin l) 0 ≤ l.getD j 0)
    (h3 : ∀ j, j < idxmin l → l.getD (idxmin l) 0 < l.getD j 0) :
    isFirstMinR (sqrtList l) (idxmin l) := by
  have hlen : (sqrtList l).length = l.length := List.length_map _ _
  have hget : ∀ j, j < l.length →
      (sqrtList l).getD j 0 = Real.sqrt (Rat.cast (l.getD j 0)) := by
    intro j hjl
    unfold sqrtList
    rw [List.getD_eq_getElem _ _ (hlen ▸ hjl), List.getD_eq_getElem _ _ hjl]
    exact List.getElem_map _
  refine ⟨hlen ▸ h1, ?_, ?_⟩
  · intro j hj
    rw [hlen] at hj
    rw [hget _ h1, hget _ hj]
    apply Real.sqrt_le_sqrt
    exact_mod_cast h2 j hj
  · intro j hj
    have hjl : j < l.length := lt_trans hj h1
    rw [hget _ h1, hget _ hjl]
    apply Real.sqrt_lt_sqrt
    · have hmem : l.getD (idxmin l) 0 ∈ l := by
        rw [List.getD_eq_getElem _ _ h1]
        exact List.getElem_mem h1
      have := hpos _ hmem
      exact_mod_cast this
    · exact_mod_cast h3 j hj

/-- C2: `best_tradeoff` scales the last generation's objective rows by the
elementwise minimum of the declared ceilings and the per-objective maxima,
and returns the row whose scaled vector has the (first) smallest Euclidean
distance to the origin; on the last-generation objectives
`[(1,4),(2,2),(4,1)]` with no ceilings it returns the individual with
objectives `(2,2)`. -/
theorem c2_best_tradeoff :
    (∀ (frame : List (ℕ × List ℚ)) (M : ℕ) (mo : Option (List ℚ)),
      mo.elim True (fun m => m.length = M) →
      last_generation frame ≠ [] →
      ∃ i, best_tradeoff frame M mo = (last_generation frame).get? i ∧
        isFirstMinR (sqrtList (distSqs (last_generation frame)
          (edges (last_generation frame) mo))) i) ∧
    best_tradeoff [(0, [1, 4]), (0, [2, 2]), (0, [4, 1])] 2 none =
      some [2, 2] := by
  constructor
  · intro frame M mo hM hne
    have hdne : distSqs (last_generation frame)
        (edges (last_generation frame) mo) ≠ [] := by
      unfold distSqs
      simpa using hne
    obtain ⟨h1, h2, h3⟩ := idxmin_spec _ hdne
    have hpos : ∀ q ∈ distSqs (last_generation frame)
        (edges (last_generation frame) mo), 0 ≤ q := by
      intro q hq
      unfold distSqs at hq
      simp only [List.mem_map] at hq
      obtain ⟨row, _, rfl⟩ := hq
      exact distSq_nonneg _ _
    refine ⟨_, ?_, isFirstMinR_sqrt hpos h1 h2 h3⟩
    cases mo with
    | none => rfl
    | some m =>
      have hlen : m.length = M := hM
      show (if m.length = M then
        best_tradeoff_core (last_generation frame) (some m) else none) = _
      rw [if_pos hlen]
      rfl
  · show best_tradeoff [(0, [1, 4]), (0, [2, 2]), (0, [4, 1])] 2 none =
      some [2, 2]
    norm_num [best_tradeoff, best_tradeoff_core, last_generation, maxGen,
      edges, colMax, transposeQ, listMax, distSqs, distSq, idxmin]

/-- Witness for C2 at the spec's three-individual example. -/
theorem c2_best_tradeoff_witness :
    (∃ i, best_tradeoff [(0, [1, 4]), (0, [2, 2]), (0, [4, 1])] 2 none =
        (last_generation [(0, [1, 4]), (0, [2, 2]), (0, [4, 1])]).get? i ∧
      isFirstMinR (sqrtList (distSqs
        (last_generation [(0, [1, 4]), (0, [2, 2]), (0, [4, 1])])
        (edges (last_generation [(0, [1, 4]), (0, [2, 2]), (0, [4, 1])])
          none))) i) ∧
    best_tradeoff [(0, [1, 4]), (0, [2, 2]), (0, [4, 1])] 2 none =
      some [2, 2] :=
  ⟨c2_best_tradeoff.1 [(0, [1, 4]), (0, [2, 2]), (0, [4, 1])] 2 none trivial
    (by decide), c2_best_tradeoff.2⟩

inductive SelErr where
  | assertLen
  | keyError
deriving DecidableEq

/-- Position of an objective column by name. -/
def colIdx (objectives : List (List Char)) (o : List Char) : Option ℕ :=
  objectives.findIdx? (fun x => x = o)

/-- Python `dict` insertion-or-replacement of one key. -/
def setKey (base : List (List Char × ℚ)) (k : List Char) (v : ℚ) :
    List (List Char × ℚ) :=
  if base.any (fun p => p.1 = k) then
    base.map (fun p => if p.1 = k then (k, v) else p)
  else base ++ [(k, v)]

/-- Python `dict.update`: later entries override earlier values in place. -/
def updateAssoc (base upd : List (List Char × ℚ)) : List (List Char × ℚ) :=
  upd.foldl (fun b kv => setKey b kv.1 kv.2) base

/-- The `lg = lg[lg[o] < v]` loop of `select_min_objectives`: one strict
filter per named ceiling, in order; an unknown column name raises KeyError. -/
def filterLoop (objectives : List (List Char)) (lg : List (List ℚ)) :
    List (List Char × ℚ) → Except SelErr (List (List ℚ))
  | [] => .ok lg
  | (o, v) :: rest =>
    match colIdx objectives o with
    | none => .error .keyError
    | some j =>
      filterLoop objectives (lg.filter (fun row => decide (row.getD j 0 < v)))
        rest

/-- `optimization_populations.select_min_objectives`: asserts the positional
ceilings match the objective count, merges them over the keyword ceilings
(`minobjkwargs.update(...)` lets the positional values win), and filters the
last generation by every merged ceiling. -/
def select_min_objectives (frame : List (ℕ × List ℚ))
    (objectives : List (List Char)) (mo : Option (List ℚ))
    (kwargs : List (List Char × ℚ)) : Except SelErr (List (List ℚ)) :=
  match mo with
  | some m =>
    if m.length = objectives.length then
      filterLoop objectives (last_generation frame)
        (updateAssoc kwargs (List.zip objectives m))
    else .error .assertLen
  | none => filterLoop objectives (last_generation frame) kwargs

/-- One merged ceiling holds for a row (an unresolvable key never occurs
under the hypotheses of the theorems below). -/
def rowMeets (objectives : List (List Char)) (row : List ℚ)
    (c : List Char × ℚ) : Bool :=
  match colIdx objectives c.1 with
  | some j => decide (row.getD j 0 < c.2)
  | none => true

theorem filterLoop_eq_filter (objectives : List (List Char)) :
    ∀ (cs : List (List Char × ℚ)) (lg : List (List ℚ)),
    (∀ c ∈ cs, (colIdx objectives c.1).isSome) →
    filterLoop objectives lg cs =
      .ok (lg.filter (fun row => cs.all (rowMeets objectives row)))
  | [], lg, _ => by simp [filterLoop]
  | (o, v) :: rest, lg, hkeys => by
    have hsome : (colIdx objectives o).isSome :=
      hkeys (o, v) (List.mem_cons_self _ _)
    obtain ⟨j, hj⟩ : ∃ j, colIdx objectives o = some j :=
      Option.isSome_iff_exists.mp hsome
    rw [filterLoop, hj]
    show filterLoop objectives
      (lg.filter (fun row => decide (row.getD j 0 < v))) rest = _
    rw [filterLoop_eq_filter objectives rest _
      (fun c hc => hkeys c (List.mem_cons_of_mem _ hc))]
    congr 1
    rw [List.filter_filter]
    apply List.filter_congr
    intro row _
    simp only [List.all_cons, rowMeets, hj, Bool.and_comm]

/-- C7: `select_min_objectives` filters the last generation to the rows whose
named objective values are all strictly below the merged ceilings, where the
positional list is zipped with the objectives in order and merged into the
keyword ceilings; with ceilings `[3,3]` on last-generation objectives
`[(1,4),(2,2),(4,1)]` only the individual with objectives `(2,2)` remains. -/
theorem c7_select_min_objectives :
    (∀ (frame : List (ℕ × List ℚ)) (objectives : List (List Char))
       (m : List ℚ) (kwargs : List (List Char × ℚ)),
      m.length = objectives.length →
      (∀ c ∈ updateAssoc kwargs (List.zip objectives m),
        (colIdx objectives c.1).isSome) →
      select_min_objectives frame objectives (some m) kwargs =
        .ok ((last_generation frame).filter (fun row =>
          (updateAssoc kwargs (List.zip objectives m)).all
            (rowMeets objectives row)))) ∧
    select_min_objectives [(0, [1, 4]), (0, [2, 2]), (0, [4, 1])]
      ["a".toList, "b".toList] (some [3, 3]) [] = .ok [[2, 2]] := by
  constructor
  · intro frame objectives m kwargs hlen hkeys
    unfold select_min_objectives
    show (if m.length = objectives.length then
      filterLoop objectives (last_generation frame)
        (updateAssoc kwargs (List.zip objectives m))
      else .error .assertLen) = _
    rw [if_pos hlen]
    exact filterLoop_eq_filter objectives _ _ hkeys
  · rfl

/-- Witness for C7 at the spec's example with ceilings `[3,3]`. -/
theorem c7_select_min_objectives_witness :
    select_min_objectives [(0, [1, 4]), (0, [2, 2]), (0, [4, 1])]
      ["a".toList, "b".toList] (some [3, 3]) [] =
      .ok ((last_generation [(0, [1, 4]), (0, [2, 2]), (0, [4, 1])]).filter
        (fun row => (updateAssoc []
          (List.zip ["a".toList, "b".toList] [3, 3])).all
          (rowMeets ["a".toList, "b".toList] row))) :=
  c7_select_min_objectives.1 [(0, [1, 4]), (0, [2, 2]), (0, [4, 1])]
    ["a".toList, "b".toList] [3, 3] [] rfl (by decide)

/-- C10: with no positional and no keyword ceilings, `select_min_objectives`
returns the entire last generation unchanged. -/
theorem c10_select_min_objectives_empty (frame : List (ℕ × List ℚ))
    (objectives : List (List Char)) :
    select_min_objectives frame objectives none [] =
      .ok (last_generation frame) := rfl

/-! EvaluationDispatcher: objective retrieval with sentinel substitution and
the clone-handle cache. -/

/-- `_EvoalgosSwimProblem.nanval`: value used when an indicator is not
uniquely reported. -/
def nanval : ℚ := 2 * 10 ^ 31

/-- A run record as seen through the browser: the clone name carried by its
tags and its stored result indicators (name, value). -/
structure Run where
  clonename : List Char
  resultindicators : List (List Char × ℚ)
deriving DecidableEq

/-- Inner loop of `retrieve_objectives`: one value per declared indicator;
the stored value if exactly one record matches the name, else `nanval`. -/
def retrieveValues (indicators : List (List Char))
    (records : List (List Char × ℚ)) : List ℚ :=
  indicators.map (fun i =>
    match records.filter (fun p => p.1 = i) with
    | [rv] => rv.2
    | _ => nanval)

/-- `retrieve_objectives`: the dictionary of objective values keyed by each
run's clone name. -/
def retrieve_objectives (indicators : List (List Char)) (runs : List Run) :
    List (List Char × List ℚ) :=
  runs.map (fun r =>
    (r.clonename, retrieveValues indicators r.resultindicators))

theorem retrieveValues_getD (indicators : List (List Char))
    (records : List (List Char × ℚ)) (j : ℕ) (hj : j < indicators.length) :
    (retrieveValues indicators records).getD j 0 =
      match records.filter (fun p => p.1 = indicators[j]) with
      | [rv] => rv.2
      | _ => nanval := by
  have hlen : j < (retrieveValues indicators records).length := by
    simpa [retrieveValues] using hj
  rw [List.getD_eq_getElem _ _ hlen]
  unfold retrieveValues
  rw [List.getElem_map]

/-- C3: when a declared indicator is absent or not uniquely reported for a
run, retrieval substitutes exactly the sentinel `2 * 10 ^ 31` at that
position; a uniquely reported indicator yields its stored value; and the
whole batch is still assigned (one entry per run, no exception). -/
theorem c3_missing_indicator_sentinel :
    nanval = 2 * 10 ^ 31 ∧
    (∀ (indicators : List (List Char)) (records : List (List Char × ℚ))
       (j : ℕ) (hj : j < indicators.length),
      ((records.filter (fun p => p.1 = indicators[j])).length ≠ 1 →
        (retrieveValues indicators records).getD j 0 = nanval) ∧
      (∀ v, records.filter (fun p => p.1 = indicators[j]) = [v] →
        (retrieveValues indicators records).getD j 0 = v.2)) ∧
    (∀ (indicators : List (List Char)) (runs : List Run),
      (retrieve_objectives indicators runs).length = runs.length ∧
      ∀ r ∈ runs,
        (r.clonename, retrieveValues indicators r.resultindicators) ∈
          retrieve_objectives indicators runs) := by
  refine ⟨rfl, ?_, ?_⟩
  · intro indicators records j hj
    constructor
    · intro hne
      rw [retrieveValues_getD indicators records j hj]
      cases hf : records.filter (fun p => p.1 = indicators[j]) with
      | nil => rfl
      | cons rv t =>
        cases t with
        | nil =>
          rw [hf] at hne
          exact absurd rfl hne
        | cons w t' => rfl
    · intro v hv
      rw [retrieveValues_getD indicators records j hj, hv]
  · intro indicators runs
    refine ⟨by simp [retrieve_objectives], ?_⟩
    intro r hr
    unfold retrieve_objectives
    exact List.mem_map.mpr ⟨r, hr, rfl⟩

/-- Witness for C3: a two-run batch where the second run lacks indicator
`b`: that position receives the sentinel, the other positions their stored
values, and both runs remain in the batch result. -/
theorem c3_missing_indicator_sentinel_witness :
    ((([("a".toList, (5 : ℚ))] :
        List (List Char × ℚ)).filter
          (fun p => p.1 = ["a".toList, "b".toList][1])).length ≠ 1 →
      (retrieveValues ["a".toList, "b".toList]
        [("a".toList, (5 : ℚ))]).getD 1 0 = nanval) ∧
    (∀ v, ([("a".toList, (5 : ℚ))] :
        List (List Char × ℚ)).filter
          (fun p => p.1 = ["a".toList, "b".toList][0]) = [v] →
      (retrieveValues ["a".toList, "b".toList]
        [("a".toList, (5 : ℚ))]).getD 0 0 = v.2) ∧
    (retrieve_objectives ["a".toList, "b".toList]
      [⟨"c0".toList, [("a".toList, 5), ("b".toList, 6)]⟩,
       ⟨"c1".toList, [("a".toList, 7)]⟩]).length = 2 :=
  ⟨(c3_missing_indicator_sentinel.2.1 ["a".toList, "b".toList]
      [("a".toList, (5 : ℚ))] 1 (by norm_num)).1,
   (c3_missing_indicator_sentinel.2.1 ["a".toList, "b".toList]
      [("a".toList, (5 : ℚ))] 0 (by norm_num)).2,
   (c3_missing_indicator_sentinel.2.2 ["a".toList, "b".toList]
      [⟨"c0".toList, [("a".toList, 5), ("b".toList, 6)]⟩,
       ⟨"c1".toList, [("a".toList, 7)]⟩]).1⟩

/-- The clone cache: name-to-handle map plus a source of fresh handles. -/
structure CloneState where
  clones : List (List Char × ℕ)
  next : ℕ
deriving DecidableEq

/-- The clone name `prefix + '_%0Ni' % i` with `N = len(str(population_size
- 1))`: prefix, underscore, then the index zero-padded to the width of the
largest index. -/
def cloneName (pfx : List Char) (population_size i : ℕ) : List Char :=
  pfx ++ '_' ::
    (List.replicate
      ((natChars (population_size - 1)).length - (natChars i).length) '0' ++
      natChars i)

/-- `_get_clone`: return the cached handle for the name if present,
otherwise create a fresh one and cache it. -/
def _get_clone (pfx : List Char) (population_size : ℕ) (st : CloneState)
    (i : ℕ) : ℕ × CloneState :=
  match st.clones.lookup (cloneName pfx population_size i) with
  | some h => (h, st)
  | none => (st.next,
      ⟨st.clones ++ [(cloneName pfx population_size i, st.next)],
        st.next + 1⟩)

/-- A sequence of further `_get_clone` requests, as later generations issue
them. -/
def runRequests (pfx : List Char) (population_size : ℕ) (st : CloneState)
    (js : List ℕ) : CloneState :=
  js.foldl (fun s j => (_get_clone pfx population_size s j).2) st

theorem lookup_append_of_some {l1 : List (List Char × ℕ)}
    (l2 : List (List Char × ℕ)) {k : List Char} {v : ℕ}
    (h : List.lookup k l1 = some v) : List.lookup k (l1 ++ l2) = some v := by
  induction l1 with
  | nil => simp [List.lookup] at h
  | cons p rest ih =>
    obtain ⟨pk, pv⟩ := p
    rw [List.cons_append]
    by_cases hk : k = pk
    · subst hk
      simpa [List.lookup_cons] using h
    · simp only [List.lookup_cons, beq_false_of_ne hk, cond_false] at h ⊢
      exact ih h

theorem lookup_append_self {l : List (List Char × ℕ)} {k : List Char}
    (h : List.lookup k l = none) (v : ℕ) :
    List.lookup k (l ++ [(k, v)]) = some v := by
  induction l with
  | nil => simp [List.lookup_cons]
  | cons p rest ih =>
    obtain ⟨pk, pv⟩ := p
    by_cases hk : k = pk
    · subst hk
      simp [List.lookup_cons] at h
    · rw [List.cons_append]
      simp only [List.lookup_cons, beq_false_of_ne hk, cond_false] at h ⊢
      exact ih h

theorem getClone_lookup {pfx : List Char} {ps : ℕ} {st : CloneState}
    {cn : List Char} {h : ℕ}
    (hl : List.lookup cn st.clones = some h) (j : ℕ) :
    List.lookup cn ((_get_clone pfx ps st j).2).clones = some h := by
  unfold _get_clone
  cases hj : List.lookup (cloneName pfx ps j) st.clones with
  | some v => exact hl
  | none => exact lookup_append_of_some _ hl

theorem runRequests_lookup {pfx : List Char} {ps : ℕ} {cn : List Char}
    {h : ℕ} :
    ∀ (js : List ℕ) (st : CloneState), List.lookup cn st.clones = some h →
    List.lookup cn (runRequests pfx ps st js).clones = some h
  | [], _, hl => hl
  | j :: js, st, hl =>
    runRequests_lookup js _ (getClone_lookup hl j)

theorem getClone_caches {pfx : List Char} {ps : ℕ} (st : CloneState)
    (i : ℕ) :
    List.lookup (cloneName pfx ps i) ((_get_clone pfx ps st i).2).clones =
      some (_get_clone pfx ps st i).1 := by
  unfold _get_clone
  cases hj : List.lookup (cloneName pfx ps i) st.clones with
  | some v => exact hj
  | none => exact lookup_append_self hj st.next

/-- C6, amended: a second request for the same index — after any sequence of
further requests, in particular in later generations — returns exactly the
handle created first, leaving the cache unchanged; and the clone name is the
prefix, an underscore, and the index zero-padded to the digit count of
`population_size - 1` (not of `population_size`). -/
theorem c6_clone_reuse_amended :
    (∀ (pfx : List Char) (ps : ℕ) (st : CloneState) (i : ℕ) (js : List ℕ),
      _get_clone pfx ps
        (runRequests pfx ps ((_get_clone pfx ps st i).2) js) i =
      ((_get_clone pfx ps st i).1,
        runRequests pfx ps ((_get_clone pfx ps st i).2) js)) ∧
    (∀ (pfx : List Char) (ps i : ℕ), cloneName pfx ps i =
      pfx ++ '_' ::
        (List.replicate
          ((natChars (ps - 1)).length - (natChars i).length) '0' ++
          natChars i)) := by
  constructor
  · intro pfx ps st i js
    have hl : ((runRequests pfx ps ((_get_clone pfx ps st i).2)
        js)).clones.lookup (cloneName pfx ps i) =
        some (_get_clone pfx ps st i).1 :=
      runRequests_lookup js _ (getClone_caches st i)
    conv_lhs => rw [_get_clone]
    rw [hl]
  · intro pfx ps i
    rfl

/-- C6, counterexample: with `population_size = 10` the pad width is
`len(str(9)) = 1`, so clone 0 of prefix `p` is named `p_0`; the claim's
padding to the digit count of the population size (two digits) would give a
name ending in `00`, which the code does not produce. -/
theorem c6_counterexample :
    cloneName "p".toList 10 0 = "p_0".toList ∧
    cloneName "p".toList 10 0 ≠ "p_00".toList ∧
    cloneName "p".toList 10 0 ≠ "p00".toList := by
  refine ⟨by decide, by decide, by decide⟩

/-! OptimizationRun orchestration: the prefix of `__call__` from parameter
validation to the generational loop, with the external collaborators as an
abstract environment. -/

/-- Lexicographic order on names by character code, Python's string order
used by `sorted`. -/
def nameLe : List Char → List Char → Bool
  | [], _ => true
  | _ :: _, [] => false
  | a :: as, b :: bs =>
    if a.toNat < b.toNat then true
    else if b.toNat < a.toNat then false
    else nameLe as bs

theorem nameLe_total : ∀ a b : List Char, nameLe a b = true ∨ nameLe b a = true
  | [], _ => Or.inl rfl
  | _ :: _, [] => Or.inr rfl
  | a :: as, b :: bs => by
    unfold nameLe
    by_cases h1 : a.toNat < b.toNat
    · left
      rw [if_pos h1]
    · by_cases h2 : b.toNat < a.toNat
      · right
        rw [if_pos h2]
      · rw [if_neg h1, if_neg h2, if_neg h2, if_neg h1]
        exact nameLe_total as bs

theorem nameLe_head {x y : Char} {xs ys : List Char}
    (h : nameLe (x :: xs) (y :: ys) = true) : ¬ y.toNat < x.toNat := by
  intro hy
  unfold nameLe at h
  rw [if_neg (by omega), if_pos hy] at h
  exact Bool.noConfusion h

theorem nameLe_trans : ∀ a b c : List Char,
    nameLe a b = true → nameLe b c = true → nameLe a c = true
  | [], _, _, _, _ => rfl
  | _ :: _, [], _, h1, _ => by simp [nameLe] at h1
  | _ :: _, _ :: _, [], _, h2 => by simp [nameLe] at h2
  | a :: as, b :: bs, c :: cs, h1, h2 => by
    have hba := nameLe_head h1
    have hcb := nameLe_head h2
    unfold nameLe
    by_cases hac : a.toNat < c.toNat
    · rw [if_pos hac]
    · have heq1 : ¬ a.toNat < b.toNat := by omega
      have heq2 : ¬ b.toNat < c.toNat := by omega
      have h1' : nameLe as bs = true := by
        unfold nameLe at h1
        rwa [if_neg heq1, if_neg (by omega)] at h1
      have h2' : nameLe bs cs = true := by
        unfold nameLe at h2
        rwa [if_neg heq2, if_neg (by omega)] at h2
      rw [if_neg hac, if_neg (by omega)]
      exact nameLe_trans as bs cs h1' h2'

/-- `random.uniform(l, u) = l + (u - l) * random()`. -/
def uniform (l u r : ℚ) : ℚ := l + (u - l) * r

/-- `OrderedDict(sorted(parameters.items()))`: the parameters in name
order. -/
def sortedParams (params : List (List Char × ℚ × ℚ)) :
    List (List Char × ℚ × ℚ) :=
  List.insertionSort (fun a b => nameLe a.1 b.1 = true) params

/-- `create_start_population`: `population_size` genomes, each sampling every
parameter uniformly within its bounds with a fresh unit sample. -/
def create_start_population (params : List (List Char × ℚ × ℚ))
    (rng : ℕ → ℚ) (population_size : ℕ) : List (List ℚ) :=
  (List.range population_size).map (fun t =>
    params.enum.map (fun je =>
      uniform je.2.2.1 je.2.2.2 (rng (t * params.length + je.1))))

inductive ParamsArg where
  | dict (d : List (List Char × List ℚ))
  | notDict
deriving DecidableEq

inductive ObjArg where
  | list (l : List (List Char))
  | dict (d : List (List Char × List Char))
deriving DecidableEq

/-- `_parse_objectives`: a list is sorted and doubles as indicator names; a
dict is sorted by objective name and split into names and indicators. -/
def _parse_objectives : ObjArg → List (List Char) × List (List Char)
  | .list l =>
    let s := List.insertionSort (fun a b => nameLe a b = true) l
    (s, s)
  | .dict d =>
    let s := List.insertionSort (fun a b => nameLe a.1 b.1 = true) d
    (s.map (fun p => p.1), s.map (fun p => p.2))

/-- Python `zip(*lists)`: transpose truncated to the shortest list. -/
def pyZip (ls : List (List ℚ)) : List (List ℚ) :=
  match ls with
  | [] => []
  | l :: rest =>
    (List.range (rest.foldl (fun m x => min m x.length) l.length)).map
      (fun i => (l :: rest).map (fun xs => xs.getD i 0))

inductive CallErr where
  | typeAssert
  | valueError
  | assertIndicatorCount
  | assertObjectiveCount
deriving DecidableEq

/-- `lo, up = zip(*self.parameters.values())`: unpacking into two names
raises unless the zip yields exactly two tuples. -/
def unpack2 : List (List ℚ) → Except CallErr (List ℚ × List ℚ)
  | [a, b] => .ok (a, b)
  | _ => .error .valueError

/-- The external collaborators: the unit-interval random stream, the result
indicators the self-test run reports, and the generation rows the algorithm
would write once running. -/
structure Env where
  rng : ℕ → ℚ
  testRunIndicators : List (List Char × ℚ)
  runRows : List ℕ

/-- `run_tests`: the self-test clone run must report exactly one indicator
record per declared indicator, and the retrieved objective values must match
the declared objective count.  (The query-set count assert holds by
construction here: the environment carries exactly the one test run.) -/
def run_tests (objectives indicators : List (List Char)) (env : Env) :
    Option CallErr :=
  if env.testRunIndicators.length ≠ indicators.length then
    some .assertIndicatorCount
  else if (retrieveValues indicators env.testRunIndicators).length ≠
      objectives.length then
    some .assertObjectiveCount
  else none

/-- Observable outcome of a `__call__` attempt: the exception if any, the
bounds unpacked at INIT, the start population, the generation rows written,
and whether the evolutionary algorithm was constructed and run. -/
structure CallOutcome where
  err : Option CallErr
  bounds : Option (List ℚ × List ℚ)
  startPop : List (List ℚ)
  rowsWritten : List ℕ
  eaInitialized : Bool
  eaRan : Bool
deriving DecidableEq

/-- The start population built from the unpacked bounds: one fresh unit
sample per (individual, parameter) pair. -/
def startPop (lo up : List ℚ) (rng : ℕ → ℚ) (population_size : ℕ) :
    List (List ℚ) :=
  (List.range population_size).map (fun t =>
    (List.range lo.length).map (fun j =>
      uniform (lo.getD j 0) (up.getD j 0) (rng (t * lo.length + j))))

/-- The `__call__` pipeline up to the generational loop: assert that
`parameters` is a dict, sort it, parse objectives, open the (still empty)
observer file, unpack bounds and build the start population, run the
self-test unless disabled, then construct and run the algorithm, which
appends the generation rows. -/
def callModel (parameters : ParamsArg) (objectives : ObjArg)
    (population_size : ℕ) (test : Option Bool) (env : Env) : CallOutcome :=
  match parameters with
  | .notDict => ⟨some .typeAssert, none, [], [], false, false⟩
  | .dict d =>
    match unpack2 (pyZip ((List.insertionSort
        (fun a b : List Char × List ℚ => nameLe a.1 b.1 = true) d).map
        (fun p => p.2))) with
    | .error e => ⟨some e, none, [], [], false, false⟩
    | .ok (lo, up) =>
      if test ≠ some false then
        match run_tests (_parse_objectives objectives).1
            (_parse_objectives objectives).2 env with
        | some e => ⟨some e, some (lo, up),
            startPop lo up env.rng population_size, [], false, false⟩
        | none =>
          if test = some true then
            ⟨none, some (lo, up), startPop lo up env.rng population_size,
              [], false, false⟩
          else ⟨none, some (lo, up),
            startPop lo up env.rng population_size, env.runRows, true, true⟩
      else ⟨none, some (lo, up), startPop lo up env.rng population_size,
        env.runRows, true, true⟩

/-- C4: if the self-test retrieves a number of objective values different
from the declared objective count, `run_tests` raises; and whenever the
self-test raises (and it is not disabled), the call aborts with no algorithm
constructed or run and no generation rows written. -/
theorem c4_self_test_gating :
    (∀ (objectives indicators : List (List Char)) (env : Env),
      (retrieveValues indicators env.testRunIndicators).length ≠
          objectives.length →
      run_tests objectives indicators env ≠ none) ∧
    (∀ (pa : ParamsArg) (oa : ObjArg) (n : ℕ) (t : Option Bool) (env : Env),
      t ≠ some false →
      run_tests (_parse_objectives oa).1 (_parse_objectives oa).2 env ≠
        none →
      (callModel pa oa n t env).err ≠ none ∧
      (callModel pa oa n t env).rowsWritten = [] ∧
      (callModel pa oa n t env).eaInitialized = false ∧
      (callModel pa oa n t env).eaRan = false) := by
  constructor
  · intro objectives indicators env hmis
    unfold run_tests
    by_cases h1 : env.testRunIndicators.length ≠ indicators.length
    · rw [if_pos h1]
      simp
    · rw [if_neg h1, if_pos hmis]
      simp
  · intro pa oa n t env ht hrt
    cases pa with
    | notDict => exact ⟨fun h => Option.noConfusion h, rfl, rfl, rfl⟩
    | dict d =>
      simp only [callModel]
      cases hz : unpack2 (pyZip ((List.insertionSort
          (fun a b : List Char × List ℚ => nameLe a.1 b.1 = true) d).map
          (fun p => p.2))) with
      | error e => exact ⟨fun h => Option.noConfusion h, rfl, rfl, rfl⟩
      | ok lu =>
        obtain ⟨lo, up⟩ := lu
        dsimp only
        rw [if_pos ht]
        cases hr : run_tests (_parse_objectives oa).1
            (_parse_objectives oa).2 env with
        | some e => exact ⟨fun h => Option.noConfusion h, rfl, rfl, rfl⟩
        | none => exact absurd hr hrt

/-- Witness for C4: a one-indicator environment against two declared
objectives trips the count assert, and a concrete call with a failing
self-test ends with an error, no rows and no algorithm. -/
theorem c4_self_test_gating_witness :
    run_tests ["a".toList, "b".toList] ["a".toList]
      ⟨fun _ => 0, [("a".toList, 1)], []⟩ ≠ none ∧
    ((callModel (.dict [("a".toList, [0, 1])]) (.list ["o".toList]) 2 none
        ⟨fun _ => 0, [], []⟩).err ≠ none ∧
      (callModel (.dict [("a".toList, [0, 1])]) (.list ["o".toList]) 2 none
        ⟨fun _ => 0, [], []⟩).rowsWritten = [] ∧
      (callModel (.dict [("a".toList, [0, 1])]) (.list ["o".toList]) 2 none
        ⟨fun _ => 0, [], []⟩).eaInitialized = false ∧
      (callModel (.dict [("a".toList, [0, 1])]) (.list ["o".toList]) 2 none
        ⟨fun _ => 0, [], []⟩).eaRan = false) :=
  ⟨c4_self_test_gating.1 ["a".toList, "b".toList] ["a".toList]
      ⟨fun _ => 0, [("a".toList, 1)], []⟩ (by decide),
   c4_self_test_gating.2 (.dict [("a".toList, [0, 1])]) (.list ["o".toList])
      2 none ⟨fun _ => 0, [], []⟩ (by decide) (by decide)⟩

theorem uniform_mem {l u r : ℚ} (hlu : l ≤ u) (h0 : 0 ≤ r) (h1 : r ≤ 1) :
    l ≤ uniform l u r ∧ uniform l u r ≤ u := by
  unfold uniform
  constructor
  · nlinarith
  · nlinarith

/-- C8: the initial population has exactly `population_size` genomes; each
genome has one entry per declared parameter, in sorted parameter order (the
sorted sequence is an ordered permutation of the declared parameters); entry
`j` of genome `t` is the affine image `lo + (up - lo) * r` of the fresh unit
sample `r = rng (t*K + j)` — uniform and independent per parameter — and
therefore lies within the declared bounds. -/
theorem c8_start_population (params : List (List Char × ℚ × ℚ))
    (rng : ℕ → ℚ) (n : ℕ)
    (hr : ∀ k, 0 ≤ rng k ∧ rng k ≤ 1)
    (hb : ∀ p ∈ params, p.2.1 ≤ p.2.2) :
    (create_start_population (sortedParams params) rng n).length = n ∧
    List.Sorted (fun a b => nameLe a.1 b.1 = true) (sortedParams params) ∧
    (sortedParams params).Perm params ∧
    (∀ t, t < n →
      ((create_start_population (sortedParams params) rng n).getD t
        []).length = params.length ∧
      ∀ j, j < params.length →
        (((create_start_population (sortedParams params) rng n).getD t
            []).getD j 0 =
          uniform ((sortedParams params).getD j ([], 0, 0)).2.1
            ((sortedParams params).getD j ([], 0, 0)).2.2
            (rng (t * params.length + j)) ∧
        ((sortedParams params).getD j ([], 0, 0)).2.1 ≤
          ((create_start_population (sortedParams params) rng n).getD t
            []).getD j 0 ∧
        ((create_start_population (sortedParams params) rng n).getD t
            []).getD j 0 ≤
          ((sortedParams params).getD j ([], 0, 0)).2.2)) := by
  haveI : IsTotal (List Char × ℚ × ℚ)
      (fun a b => nameLe a.1 b.1 = true) :=
    ⟨fun a b => nameLe_total a.1 b.1⟩
  haveI : IsTrans (List Char × ℚ × ℚ)
      (fun a b => nameLe a.1 b.1 = true) :=
    ⟨fun a b c h1 h2 => nameLe_trans a.1 b.1 c.1 h1 h2⟩
  have hperm : (sortedParams params).Perm params :=
    List.perm_insertionSort _ params
  have hslen : (sortedParams params).length = params.length :=
    hperm.length_eq
  refine ⟨by simp [create_start_population], ?_, hperm, ?_⟩
  · exact List.sorted_insertionSort _ params
  · intro t ht
    have hrowlen : t < (create_start_population (sortedParams params)
        rng n).length := by
      simpa [create_start_population] using ht
    have hrow : (create_start_population (sortedParams params) rng n).getD
        t [] = (sortedParams params).enum.map (fun je =>
          uniform je.2.2.1 je.2.2.2
            (rng (t * (sortedParams params).length + je.1))) := by
      rw [List.getD_eq_getElem _ _ hrowlen]
      unfold create_start_population
      rw [List.getElem_map, List.getElem_range]
    constructor
    · rw [hrow]
      simp [hslen]
    · intro j hj
      have hjs : j < (sortedParams params).length := by omega
      have hjrow : j < ((create_start_population (sortedParams params)
          rng n).getD t []).length := by
        rw [hrow]
        simpa [hslen] using hj
      have hval : ((create_start_population (sortedParams params) rng
          n).getD t []).getD j 0 =
          uniform ((sortedParams params).getD j ([], 0, 0)).2.1
            ((sortedParams params).getD j ([], 0, 0)).2.2
            (rng (t * params.length + j)) := by
        rw [hrow]
        have hjm : j < ((sortedParams params).enum.map (fun je =>
            uniform je.2.2.1 je.2.2.2
              (rng (t * (sortedParams params).length + je.1)))).length := by
          simpa [hslen] using hj
        rw [List.getD_eq_getElem _ _ hjm, List.getElem_map,
          List.getElem_enum, List.getD_eq_getElem _ _ hjs]
        have harg : t * (sortedParams params).length + j =
            t * params.length + j := by rw [hslen]
        rw [harg]
      have hmem : (sortedParams params).getD j ([], 0, 0) ∈ params := by
        rw [List.getD_eq_getElem _ _ hjs]
        exact hperm.mem_iff.mp (List.getElem_mem hjs)
      have hlu := hb _ hmem
      have hbounds := uniform_mem hlu
        (hr (t * params.length + j)).1 (hr (t * params.length + j)).2
      refine ⟨hval, ?_, ?_⟩
      · rw [hval]
        exact hbounds.1
      · rw [hval]
        exact hbounds.2

/-- Witness for C8 on two parameters, a constant unit sample and
population size two. -/
theorem c8_start_population_witness :
    (create_start_population
      (sortedParams [("b".toList, (0 : ℚ), (1 : ℚ)),
        ("a".toList, (2 : ℚ), (4 : ℚ))]) (fun _ => 1/2) 2).length = 2 ∧
    (sortedParams [("b".toList, (0 : ℚ), (1 : ℚ)),
      ("a".toList, (2 : ℚ), (4 : ℚ))]).Perm
      [("b".toList, (0 : ℚ), (1 : ℚ)), ("a".toList, (2 : ℚ), (4 : ℚ))] :=
  ⟨(c8_start_population
      [("b".toList, (0 : ℚ), (1 : ℚ)), ("a".toList, (2 : ℚ), (4 : ℚ))]
      (fun _ => 1/2) 2 (fun _ => by norm_num) (by
        intro p hp
        rcases List.mem_cons.mp hp with rfl | hp
        · norm_num
        · rcases List.mem_cons.mp hp with rfl | hp
          · norm_num
          · exact absurd hp (List.not_mem_nil p))).1,
   (c8_start_population
      [("b".toList, (0 : ℚ), (1 : ℚ)), ("a".toList, (2 : ℚ), (4 : ℚ))]
      (fun _ => 1/2) 2 (fun _ => by norm_num) (by
        intro p hp
        rcases List.mem_cons.mp hp with rfl | hp
        · norm_num
        · rcases List.mem_cons.mp hp with rfl | hp
          · norm_num
          · exact absurd hp (List.not_mem_nil p))).2.2.1⟩

/-- C9, counterexample: the parameter dict `{'a': (1,2,3), 'b': (4,5)}`
violates the name-to-(lower, upper) shape, yet the call raises nothing: the
oversized tuple is silently truncated by `zip(*values)` and the run proceeds
with bounds `lo = (1,4)`, `up = (2,5)`. -/
theorem c9_counterexample :
    (callModel (.dict [("a".toList, [1, 2, 3]), ("b".toList, [4, 5])])
      (.list ["o".toList]) 2 (some true)
      ⟨fun _ => 0, [("o".toList, 1)], []⟩).err = none ∧
    (callModel (.dict [("a".toList, [1, 2, 3]), ("b".toList, [4, 5])])
      (.list ["o".toList]) 2 (some true)
      ⟨fun _ => 0, [("o".toList, 1)], []⟩).bounds =
      some ([1, 4], [2, 5]) := by
  constructor <;> rfl

/-- C9, amended: INIT validates only that `parameters` is a dict (a non-dict
argument is fatal before anything happens); an empty dict is fatal while
unpacking the bounds, before any generation; but a dict whose values are not
uniformly 2-tuples is not rejected: whenever `zip(*values)` yields exactly
two aligned tuples the call proceeds with those (possibly truncated) bounds
and can only fail later in the self-test. -/
theorem c9_init_validation_amended :
    (∀ (oa : ObjArg) (n : ℕ) (t : Option Bool) (env : Env),
      callModel .notDict oa n t env =
        ⟨some .typeAssert, none, [], [], false, false⟩) ∧
    (∀ (oa : ObjArg) (n : ℕ) (t : Option Bool) (env : Env),
      (callModel (.dict []) oa n t env).err = some .valueError ∧
      (callModel (.dict []) oa n t env).rowsWritten = [] ∧
      (callModel (.dict []) oa n t env).eaInitialized = false) ∧
    (∀ (d : List (List Char × List ℚ)) (oa : ObjArg) (n : ℕ)
       (t : Option Bool) (env : Env) (lo up : List ℚ),
      pyZip ((List.insertionSort
        (fun a b : List Char × List ℚ => nameLe a.1 b.1 = true) d).map
        (fun p => p.2)) = [lo, up] →
      (callModel (.dict d) oa n t env).bounds = some (lo, up) ∧
      (callModel (.dict d) oa n t env).err ≠ some .typeAssert ∧
      (callModel (.dict d) oa n t env).err ≠ some .valueError) := by
  refine ⟨fun oa n t env => rfl, fun oa n t env => ⟨rfl, rfl, rfl⟩, ?_⟩
  intro d oa n t env lo up hz
  simp only [callModel]
  rw [hz]
  simp only [unpack2]
  by_cases ht : t ≠ some false
  · rw [if_pos ht]
    cases hr : run_tests (_parse_objectives oa).1 (_parse_objectives oa).2
        env with
    | some e =>
      dsimp only
      have he : e = CallErr.assertIndicatorCount ∨
          e = CallErr.assertObjectiveCount := by
        unfold run_tests at hr
        split at hr
        · exact Or.inl (Option.some.inj hr).symm
        · split at hr
          · exact Or.inr (Option.some.inj hr).symm
          · exact Option.noConfusion hr
      refine ⟨rfl, ?_, ?_⟩ <;> rcases he with rfl | rfl <;> simp
    | none =>
      dsimp only
      by_cases htt : t = some true
      · rw [if_pos htt]
        exact ⟨rfl, by simp, by simp⟩
      · rw [if_neg htt]
        exact ⟨rfl, by simp, by simp⟩
  · rw [if_neg ht]
    exact ⟨rfl, by simp, by simp⟩

/-- Witness for the amended C9 theorem at the truncating dict. -/
theorem c9_init_validation_amended_witness :
    (callModel (.dict [("a".toList, [1, 2, 3]), ("b".toList, [4, 5])])
      (.list []) 1 none ⟨fun _ => 0, [], []⟩).bounds =
      some ([1, 4], [2, 5]) ∧
    (callModel (.dict [("a".toList, [1, 2, 3]), ("b".toList, [4, 5])])
      (.list []) 1 none ⟨fun _ => 0, [], []⟩).err ≠ some .typeAssert ∧
    (callModel (.dict [("a".toList, [1, 2, 3]), ("b".toList, [4, 5])])
      (.list []) 1 none ⟨fun _ => 0, [], []⟩).err ≠ some .valueError :=
  c9_init_validation_amended.2.2 [("a".toList, [1, 2, 3]),
    ("b".toList, [4, 5])] (.list []) 1 none ⟨fun _ => 0, [], []⟩
    [1, 4] [2, 5] (by rfl)

end Swimpy
